import Mathlib

/-!
Shallow embedding of the outcore_contraction core (registry, buffer pool,
LRU cache, prefetch pipeline) and verification of its specification claims.

Conventions of the embedding:
* machine integers (size_t, hsize_t, int where non-negative) are modelled
  as Nat; the C sources never rely on overflow in the verified paths;
* the C call pow((double)n, 1.0/rank) followed by floor / round is
  modelled over exact arithmetic: floor of the real rank-th root of a
  natural n is the greatest s with s^rank <= n, and round adds one exactly
  when the fractional part is at least one half, i.e. when
  (2*s+1)^rank <= 2^rank * n; the floor case diverges from IEEE doubles
  at perfect powers (see internal_calc_chunk), so no chunk-value fact at
  a perfect-power input is asserted of the program;
* the HDF5 store is external to the core; scan input is modelled as the
  list of chunk offsets the store reports;
* payload element types (float / double) are a type parameter, since the
  verified code only moves payloads and counts their elements.
-/

namespace Outcore

/-- Integer rank-th root by binary search on the interval [lo, hi):
returns the greatest s in the interval with s^r <= n.  This is the exact
model of floor(pow((double)n, 1.0/r)). -/
def natRootAux (r n : Nat) : Nat → Nat → Nat → Nat
  | 0, lo, _ => lo
  | fuel+1, lo, hi =>
    if hi ≤ lo + 1 then lo
    else
      let mid := (lo + hi) / 2
      if mid ^ r ≤ n then natRootAux r n fuel mid hi else natRootAux r n fuel lo mid

/-- Greatest s with s^r ≤ n (for r ≥ 1); the exact floor of the real
r-th root of n. -/
def natRoot (r n : Nat) : Nat := natRootAux r n (n+1) 0 (n+1)

theorem natRootAux_spec (r n : Nat) :
    ∀ fuel lo hi, lo ^ r ≤ n → (∀ s, s ^ r ≤ n → s < hi) → hi - lo ≤ fuel →
      lo < hi →
      (natRootAux r n fuel lo hi) ^ r ≤ n ∧
        ∀ s, s ^ r ≤ n → s ≤ natRootAux r n fuel lo hi := by
  intro fuel
  induction fuel with
  | zero =>
    intro lo hi _ _ hfuel hlt
    omega
  | succ fuel ih =>
    intro lo hi hlo hhi hfuel hlt
    unfold natRootAux
    by_cases hcase : hi ≤ lo + 1
    · simp only [hcase, if_true]
      refine ⟨hlo, ?_⟩
      intro s hs
      have := hhi s hs
      omega
    · simp only [hcase, if_false]
      have hmid1 : lo < (lo + hi) / 2 := by omega
      have hmid2 : (lo + hi) / 2 < hi := by omega
      by_cases hpow : ((lo + hi) / 2) ^ r ≤ n
      · simp only [hpow, if_true]
        exact ih ((lo + hi) / 2) hi hpow hhi (by omega) hmid2
      · simp only [hpow, if_false]
        refine ih lo ((lo + hi) / 2) hlo ?_ (by omega) hmid1
        intro s hs
        by_contra hcon
        push_neg at hcon
        have : ((lo + hi) / 2) ^ r ≤ s ^ r := Nat.pow_le_pow_left hcon r
        omega

/-- natRoot r n is the greatest natural whose r-th power is at most n,
i.e. the floor of the real r-th root. -/
theorem natRoot_spec (r n : Nat) (hr : 1 ≤ r) :
    (natRoot r n) ^ r ≤ n ∧ ∀ s, s ^ r ≤ n → s ≤ natRoot r n := by
  have h0 : (0 : Nat) ^ r ≤ n := by
    rw [Nat.zero_pow (by omega)]
    exact Nat.zero_le n
  have hbound : ∀ s, s ^ r ≤ n → s < n + 1 := by
    intro s hs
    have hle : s ≤ s ^ r := Nat.le_self_pow (by omega) s
    omega
  exact natRootAux_spec r n (n+1) 0 (n+1) h0 hbound (by omega) (by omega)

theorem natRoot_unique (r n s : Nat) (hr : 1 ≤ r)
    (h1 : s ^ r ≤ n) (h2 : n < (s + 1) ^ r) : natRoot r n = s := by
  obtain ⟨ha, hb⟩ := natRoot_spec r n hr
  have hs := hb s h1
  by_contra hne
  have hlt : s + 1 ≤ natRoot r n := by omega
  have : (s + 1) ^ r ≤ (natRoot r n) ^ r := Nat.pow_le_pow_left hlt r
  omega

/-- Nearest-integer rank-th root: the exact model of
round(pow((double)n, 1.0/r)).  The fractional part of the real root is at
least one half exactly when ((2*s+1)/2)^r <= n, i.e. (2s+1)^r <= 2^r * n. -/
def roundRoot (r n : Nat) : Nat :=
  let s := natRoot r n
  if (2 * s + 1) ^ r ≤ 2 ^ r * n then s + 1 else s

/-! ## src/src/registry.c -/

/-- Embedding of internal_calc_chunk (registry.c): per-axis chunk edge is
floor(pow(target/sizeof(double), 1.0/rank)), floored to 1 and clamped to
the global dimension of the axis.  The double-precision pow call is
idealized here as the exact integer root; on IEEE doubles the program's
pow(262144.0, 1.0/3.0) evaluates just below 64 and floors to 63, so at
perfect-power inputs the program derives one less than this
idealization (the sibling calculate_chunk_dims in tensor_store.c rounds
and is insensitive to that last-ulp error).  Statements about the chunk
value at perfect-power inputs are therefore NOT transferred to the
program; the divergence theorems below use only inputs whose root is far
from an integer, where floor of any faithful pow agrees with the exact
root. -/
def internal_calc_chunk (target : Nat) (rank : Nat) (global : List Nat) :
    List Nat :=
  let total_elems := target / 8
  let side := natRoot rank total_elems
  global.map (fun g => min (max side 1) g)

/-- Tile status flags from registry.h. -/
inductive TileStatus where
  | null
  | on_disk
  | in_ram
deriving DecidableEq, Repr

/-- TileMetadata from registry.h. -/
structure TileMetadata where
  global_coords : List Nat
  phys_offset : List Nat
  status : TileStatus
  buffer_id : Int
deriving DecidableEq, Repr

/-- Reverse row-major linearization, as in the populate loop of
registry_create: for d = rank-1 downto 0, coords[d] = temp mod grid[d],
temp = temp / grid[d].  Returns (coords, final temp). -/
def unlin : List Nat → Nat → List Nat × Nat
  | [], t => ([], t)
  | g :: gs, t =>
    let p := unlin gs t
    (p.2 % g :: p.1, p.2 / g)

/-- Initial metadata stored in slot idx by registry_create. -/
def tileInit (grid chunk : List Nat) (idx : Nat) : TileMetadata :=
  let coords := (unlin grid idx).1
  { global_coords := coords
    phys_offset := List.zipWith (fun c ch => c * ch) coords chunk
    status := TileStatus.null
    buffer_id := -1 }

/-- TensorRegistry from registry.h (dims held as lists of length rank). -/
structure TensorRegistry where
  rank : Nat
  global_dims : List Nat
  chunk_dims : List Nat
  grid_dims : List Nat
  total_tiles : Nat
  tiles : List TileMetadata
deriving DecidableEq, Repr

/-- Embedding of registry_create (registry.c). -/
def registry_create (rank : Nat) (global_dims : List Nat)
    (target_chunk_bytes : Nat) : TensorRegistry :=
  let chunk := internal_calc_chunk target_chunk_bytes rank global_dims
  let grid := List.zipWith (fun g c => (g + c - 1) / c) global_dims chunk
  let total := grid.prod
  { rank := rank
    global_dims := global_dims
    chunk_dims := chunk
    grid_dims := grid
    total_tiles := total
    tiles := (List.range total).map (tileInit grid chunk) }

/-- Row-major linearization used by registry_get_tile:
index = i*(Ny*Nz) + j*Nz + k. -/
def lin3 (grid : List Nat) (i j k : Nat) : Nat :=
  i * (grid.getD 1 0 * grid.getD 2 0) + j * grid.getD 2 0 + k

/-- Embedding of registry_get_tile (registry.c): bounds check against the
grid, then row-major lookup into the flat tile array. -/
def registry_get_tile (reg : TensorRegistry) (i j k : Nat) :
    Option TileMetadata :=
  if i ≥ reg.grid_dims.getD 0 0 ∨ j ≥ reg.grid_dims.getD 1 0 ∨
      k ≥ reg.grid_dims.getD 2 0 then
    none
  else
    reg.tiles.get? (lin3 reg.grid_dims i j k)

/-- Logical tile coordinates recovered from a reported physical chunk
offset, as in registry_scan_file: tile_coords[d] = chunk_offset[d] /
chunk_dims[d]. -/
def scanCoords (reg : TensorRegistry) (off : Nat × Nat × Nat) :
    Nat × Nat × Nat :=
  (off.1 / reg.chunk_dims.getD 0 0,
   off.2.1 / reg.chunk_dims.getD 1 0,
   off.2.2 / reg.chunk_dims.getD 2 0)

/-- Predicate: the recovered tile coordinates of a reported offset lie
inside the registry's grid (the bounds check of registry_get_tile). -/
def inGrid (reg : TensorRegistry) (off : Nat × Nat × Nat) : Bool :=
  let c := scanCoords reg off
  decide (c.1 < reg.grid_dims.getD 0 0) &&
  decide (c.2.1 < reg.grid_dims.getD 1 0) &&
  decide (c.2.2 < reg.grid_dims.getD 2 0)

/-- Marks the tile at a flat index ON_DISK (the write through the pointer
returned by registry_get_tile). -/
def setTileOnDisk (tiles : List TileMetadata) (idx : Nat) :
    List TileMetadata :=
  match tiles.get? idx with
  | some t => tiles.set idx { t with status := TileStatus.on_disk }
  | none => tiles

/-- One iteration of the scan loop of registry_scan_file for one reported
chunk offset. -/
def scanStep (acc : Nat × TensorRegistry) (off : Nat × Nat × Nat) :
    Nat × TensorRegistry :=
  let reg := acc.2
  let c := scanCoords reg off
  if inGrid reg off then
    (acc.1 + 1,
     { reg with tiles := setTileOnDisk reg.tiles (lin3 reg.grid_dims c.1 c.2.1 c.2.2) })
  else
    (acc.1, reg)

/-- Embedding of registry_scan_file (registry.c).  The HDF5 store is
external to the core; its chunk enumeration (H5Dget_num_chunks /
H5Dget_chunk_info) is modelled as the list of reported physical chunk
offsets.  Returns the found count and the updated registry. -/
def registry_scan_file (reg : TensorRegistry)
    (offsets : List (Nat × Nat × Nat)) : Nat × TensorRegistry :=
  offsets.foldl scanStep (0, reg)

/-! ## src/src/tensor_store.c -/

/-- Embedding of calculate_chunk_dims (tensor_store.c): one edge
round((target/sizeof(double))^(1/rank)), floored to 1, then clamped
per-axis to the global dimension. -/
def calculate_chunk_dims (target_bytes : Nat) (rank : Nat)
    (global_dims : List Nat) : List Nat :=
  let total_elements := target_bytes / 8
  let side_int := roundRoot rank total_elements
  let side1 := max side_int 1
  global_dims.map (fun g => min side1 g)

/-! ## src/src/memory.c -/

/-- BufferPool from memory.c.  The free stack is held top-first (the head
of the list is free_stack[top-1]).  The slab is the malloc'd data block;
its element type is abstract since acquire/release never touch it. -/
structure BufferPool (α : Type) where
  num_pages : Nat
  page_size : Nat
  free_stack : List Nat
  slab : List α
deriving Repr

/-- Embedding of pool_create (memory.c): the free stack is initialized to
[0, 1, ..., N-1] with top = N, so the top of the stack holds N-1.  The
slab contents are the (uninitialized) malloc'd memory, passed in
abstractly; pool_create performs no memset. -/
def pool_create (n page_size : Nat) (slab : List α) : BufferPool α :=
  { num_pages := n
    page_size := page_size
    free_stack := (List.range n).reverse
    slab := slab }

/-- Embedding of pool_acquire (memory.c): pops the top of the free stack;
fails (returns none) when the stack is empty. -/
def pool_acquire (p : BufferPool α) : Option Nat × BufferPool α :=
  match p.free_stack with
  | [] => (none, p)
  | k :: rest => (some k, { p with free_stack := rest })

/-- Embedding of pool_release (memory.c): out-of-range ids and pushes
onto a full stack are reported and ignored; otherwise the id is pushed
back on the free stack. -/
def pool_release (p : BufferPool α) (page_id : Nat) : BufferPool α :=
  if page_id < p.num_pages then
    if p.num_pages ≤ p.free_stack.length then p
    else { p with free_stack := page_id :: p.free_stack }
  else p

/-- Result of pool_free_count (memory.c): the stack cursor. -/
def pool_free_count (p : BufferPool α) : Nat := p.free_stack.length

/-- Acquiring m times in a row, collecting the returned ids in order. -/
def acquireN (p : BufferPool α) : Nat → List Nat × BufferPool α
  | 0 => ([], p)
  | m + 1 =>
    match pool_acquire p with
    | (some k, p') =>
      let rest := acquireN p' m
      (k :: rest.1, rest.2)
    | (none, p') => ([], p')

/-- A client call against the pool: pool_acquire or pool_release(k). -/
inductive PoolOp where
  | acquire
  | release (k : Nat)
deriving DecidableEq, Repr

/-- Pool state together with the ghost multiset of in-use page ids (the
ids handed out by pool_acquire and not yet returned), which the spec's
in_use_count refers to; the C code keeps no such counter. -/
structure PoolSim (α : Type) where
  pool : BufferPool α
  in_use : List Nat
deriving Repr

/-- One client call, with ghost in-use accounting: a successful acquire
moves the popped id to the in-use list; a release that passes the code's
guards removes one occurrence of the released id from it. -/
def simStep (s : PoolSim α) : PoolOp → PoolSim α
  | PoolOp.acquire =>
    match s.pool.free_stack with
    | [] => s
    | k :: _ =>
      { pool := (pool_acquire s.pool).2, in_use := k :: s.in_use }
  | PoolOp.release k =>
    if k < s.pool.num_pages ∧ s.pool.free_stack.length < s.pool.num_pages then
      { pool := pool_release s.pool k, in_use := s.in_use.erase k }
    else
      { pool := pool_release s.pool k, in_use := s.in_use }

/-- Runs a sequence of client calls against the pool. -/
def simRun (s : PoolSim α) (ops : List PoolOp) : PoolSim α :=
  ops.foldl simStep s

/-- Fresh pool simulation state: all pages free, nothing in use. -/
def simInit (n page_size : Nat) (slab : List α) : PoolSim α :=
  { pool := pool_create n page_size slab, in_use := [] }

/-- Well-formed call sequences: every release returns an id currently in
use (acquired and not yet released). -/
def goodOps (s : PoolSim α) : List PoolOp → Bool
  | [] => true
  | PoolOp.acquire :: ops => goodOps (simStep s PoolOp.acquire) ops
  | PoolOp.release k :: ops =>
    decide (k ∈ s.in_use) && goodOps (simStep s (PoolOp.release k)) ops

/-! ## src/src/engine.cpp

Payload vectors (std::vector of float) are modelled as List α for an
abstract element type α; the engine only moves payloads and counts their
elements, and sizeof(float) = 4 enters the byte accounting. -/

/-- BlockDescriptor from engine.hpp. -/
structure BlockDescriptor where
  tile_shape : List Nat
  chunk_shape : List Nat
  bytes : Nat
deriving DecidableEq, Repr

/-- BlockMetadata from engine.hpp. -/
structure BlockMetadata where
  is_zero : Bool
  hdf5_path : String
  descriptor : BlockDescriptor
deriving DecidableEq, Repr

/-- Embedding of MetadataRegistry::Register: map insert-or-overwrite,
modelled as prepend with first-match lookup. -/
def mdRegister (entries : List (String × BlockMetadata)) (key : String)
    (m : BlockMetadata) : List (String × BlockMetadata) :=
  (key, m) :: entries

/-- Embedding of MetadataRegistry::Lookup. -/
def mdLookup (entries : List (String × BlockMetadata)) (key : String) :
    Option BlockMetadata :=
  entries.lookup key

/-- CacheEntry from engine.hpp. -/
structure CacheEntry (α : Type) where
  key : String
  data : List α
deriving DecidableEq, Repr

/-- LruCache state from engine.hpp: byte budget, byte counter, recency
list (most recent at the front), and the key-to-entry table as an
association list with unique keys. -/
structure LruCache (α : Type) where
  max_bytes : Nat
  current_bytes : Nat
  lru : List String
  entries : List (String × List α)
deriving Repr

/-- A freshly constructed LruCache(max_bytes). -/
def lruCacheInit (α : Type) (max_bytes : Nat) : LruCache α :=
  { max_bytes := max_bytes, current_bytes := 0, lru := [], entries := [] }

/-- Replaces the payload stored under a key in the entry table
(map operator[] assignment on an existing key). -/
def updateAssoc (entries : List (String × List α)) (key : String)
    (data : List α) : List (String × List α) :=
  entries.map (fun p => if p.1 = key then (key, data) else p)

/-- Removes the entry of a key from the entry table (map erase). -/
def eraseAssoc (entries : List (String × List α)) (key : String) :
    List (String × List α) :=
  entries.filter (fun p => p.1 ≠ key)

/-- Embedding of LruCache::Touch: erase the key from the recency list if
present, then push it to the front. -/
def lruTouch (lru : List String) (key : String) : List String :=
  key :: lru.erase key

/-- The eviction loop of LruCache::EvictIfNeeded, run on the recency list
reversed so that the least-recent end is the head: while the cache is
over budget and keys remain, drop the least-recent key and erase its
entry, subtracting its payload bytes.  Returns the remaining reversed
recency list, the entry table, and the byte counter. -/
def evictAux (maxB : Nat) :
    List String → List (String × List α) → Nat →
      List String × List (String × List α) × Nat
  | [], entries, cur => ([], entries, cur)
  | key :: rest, entries, cur =>
    if cur ≤ maxB then (key :: rest, entries, cur)
    else
      match entries.lookup key with
      | some d => evictAux maxB rest (eraseAssoc entries key) (cur - d.length * 4)
      | none => evictAux maxB rest entries cur

/-- Embedding of LruCache::EvictIfNeeded. -/
def evictIfNeeded (c : LruCache α) : LruCache α :=
  let r := evictAux c.max_bytes c.lru.reverse c.entries c.current_bytes
  { c with lru := r.1.reverse, entries := r.2.1, current_bytes := r.2.2 }

/-- Embedding of LruCache::Put: insert or replace (adjusting the byte
counter by the old and new payload sizes, sizeof(float) = 4), refresh
recency, then evict while over budget. -/
def lruPut (c : LruCache α) (key : String) (data : List α) : LruCache α :=
  let bytes := data.length * 4
  match c.entries.lookup key with
  | some old =>
    evictIfNeeded
      { c with
        current_bytes := c.current_bytes - old.length * 4 + bytes
        entries := updateAssoc c.entries key data
        lru := lruTouch c.lru key }
  | none =>
    evictIfNeeded
      { c with
        entries := (key, data) :: c.entries
        lru := key :: c.lru
        current_bytes := c.current_bytes + bytes }

/-- Applies a sequence of Put operations in order. -/
def lruPuts (c : LruCache α) (ops : List (String × List α)) : LruCache α :=
  ops.foldl (fun c p => lruPut c p.1 p.2) c

/-- PrefetchRequest from engine.hpp. -/
structure PrefetchRequest where
  key : String
  descriptor : BlockDescriptor
deriving DecidableEq, Repr

/-- IOThread state from engine.hpp: the request queue, the ready queue,
the atomic stop flag, and a ghost counter of how many times the worker
has been joined (worker_.join() calls). -/
structure IOThread (α : Type) where
  queue : List PrefetchRequest
  ready : List (CacheEntry α)
  stopFlag : Bool
  joinCount : Nat
deriving Repr

/-- Embedding of IOThread::Enqueue: push_back on the request queue. -/
def ioEnqueue (t : IOThread α) (request : PrefetchRequest) : IOThread α :=
  { t with queue := t.queue ++ [request] }

/-- Embedding of IOThread::Pending: depth of the request queue. -/
def ioPending (t : IOThread α) : Nat := t.queue.length

/-- Embedding of IOThread::Stop: the compare-exchange on the stop flag
makes exactly one caller flip false to true and join the worker; every
other call returns immediately. -/
def ioStop (t : IOThread α) : IOThread α :=
  if t.stopFlag then t
  else { t with stopFlag := true, joinCount := t.joinCount + 1 }

/-- Embedding of IOThread::~IOThread, which calls Stop(). -/
def ioDestruct (t : IOThread α) : IOThread α := ioStop t

/-- A freshly constructed IOThread: empty queues, stop flag false, worker
not yet joined. -/
def ioThreadInit (α : Type) : IOThread α :=
  { queue := [], ready := [], stopFlag := false, joinCount := 0 }

/-- OutcoreEngine state from engine.hpp reduced to the components the
verified operations touch: the metadata registry, the LRU cache, and the
IO thread. -/
structure OutcoreEngine (α : Type) where
  metadata : List (String × BlockMetadata)
  cache : LruCache α
  io : IOThread α
deriving Repr

/-- Embedding of OutcoreEngine::RegisterBlock. -/
def engineRegisterBlock (e : OutcoreEngine α) (key : String)
    (m : BlockMetadata) : OutcoreEngine α :=
  { e with metadata := mdRegister e.metadata key m }

/-- Embedding of OutcoreEngine::QueuePrefetch: look the key up; if it is
unknown or flagged is_zero, return without enqueuing; otherwise enqueue a
prefetch request with the block's descriptor. -/
def engineQueuePrefetch (e : OutcoreEngine α) (key : String) :
    OutcoreEngine α :=
  match mdLookup e.metadata key with
  | none => e
  | some m =>
    if m.is_zero then e
    else { e with io := ioEnqueue e.io { key := key, descriptor := m.descriptor } }

/-- Embedding of OutcoreEngine::AlignChunkToTile: rank mismatch throws
std::invalid_argument; otherwise each chunk edge is tile rounded up to
the next multiple of the alignment (an alignment of 0 counts as 1), and
bytes is the tile element count times element_bytes. -/
def alignChunkToTile (tile_shape chunk_alignment : List Nat)
    (element_bytes : Nat) : Except String BlockDescriptor :=
  if tile_shape.length ≠ chunk_alignment.length then
    Except.error "tile shape and alignment rank must match"
  else
    Except.ok
      { tile_shape := tile_shape
        chunk_shape :=
          List.zipWith
            (fun tile a =>
              let align := if a = 0 then 1 else a
              ((tile + align - 1) / align) * align)
            tile_shape chunk_alignment
        bytes := tile_shape.prod * element_bytes }

/-! ## Claim theorems -/

/-- Least-multiple facts about the rounded-up edge computed by
AlignChunkToTile. -/
theorem ceil_mul_facts (t a : Nat) (ha : 1 ≤ a) :
    a ∣ ((t + a - 1) / a) * a ∧ t ≤ ((t + a - 1) / a) * a ∧
      ((t + a - 1) / a) * a < t + a := by
  refine ⟨dvd_mul_left a ((t + a - 1) / a), ?_, ?_⟩
  · have h1 := Nat.div_add_mod (t + a - 1) a
    have h2 : (t + a - 1) % a < a := Nat.mod_lt _ (by omega)
    have h3 : ((t + a - 1) / a) * a = a * ((t + a - 1) / a) := Nat.mul_comm _ _
    omega
  · have h1 := Nat.div_add_mod (t + a - 1) a
    have h2 : (t + a - 1) % a < a := Nat.mod_lt _ (by omega)
    have h3 : ((t + a - 1) / a) * a = a * ((t + a - 1) / a) := Nat.mul_comm _ _
    omega

/-- C6: AlignChunkToTile(tile_shape, chunk_alignment, element_bytes)
returns, when the two vectors have equal rank, a descriptor whose
chunk_shape[i] is ceil(tile_shape[i] / alignment[i]) * alignment[i]
(an alignment of 0 counting as 1) — equivalently the least multiple of
the alignment that is at least the tile edge — and whose bytes is the
product of tile_shape times element_bytes; a rank mismatch between the
two vectors is a caller error (std::invalid_argument). -/
theorem C6_align_chunk_to_tile (tile_shape chunk_alignment : List Nat)
    (element_bytes : Nat) :
    (tile_shape.length = chunk_alignment.length →
      ∃ d, alignChunkToTile tile_shape chunk_alignment element_bytes =
            Except.ok d ∧
        d.tile_shape = tile_shape ∧
        d.bytes = tile_shape.prod * element_bytes ∧
        d.chunk_shape.length = tile_shape.length ∧
        ∀ i (h1 : i < tile_shape.length) (h2 : i < chunk_alignment.length)
          (h3 : i < d.chunk_shape.length),
          let a := if chunk_alignment[i] = 0 then 1 else chunk_alignment[i]
          d.chunk_shape[i] = ((tile_shape[i] + a - 1) / a) * a ∧
          a ∣ d.chunk_shape[i] ∧ tile_shape[i] ≤ d.chunk_shape[i] ∧
          d.chunk_shape[i] < tile_shape[i] + a) ∧
    (tile_shape.length ≠ chunk_alignment.length →
      alignChunkToTile tile_shape chunk_alignment element_bytes =
        Except.error "tile shape and alignment rank must match") := by
  constructor
  · intro hlen
    refine ⟨{ tile_shape := tile_shape
              chunk_shape :=
                List.zipWith
                  (fun tile a =>
                    let align := if a = 0 then 1 else a
                    ((tile + align - 1) / align) * align)
                  tile_shape chunk_alignment
              bytes := tile_shape.prod * element_bytes }, ?_, rfl, rfl, ?_, ?_⟩
    · unfold alignChunkToTile
      simp [hlen]
    · simp [List.length_zipWith, hlen]
    · intro i h1 h2 h3
      intro a
      have hget : (List.zipWith
          (fun tile al =>
            let align := if al = 0 then 1 else al
            ((tile + align - 1) / align) * align)
          tile_shape chunk_alignment)[i] =
          ((tile_shape[i] + (if chunk_alignment[i] = 0 then 1
            else chunk_alignment[i]) - 1) /
            (if chunk_alignment[i] = 0 then 1 else chunk_alignment[i])) *
            (if chunk_alignment[i] = 0 then 1 else chunk_alignment[i]) := by
        simp [List.getElem_zipWith]
      have ha : 1 ≤ (if chunk_alignment[i] = 0 then 1 else chunk_alignment[i]) := by
        split <;> omega
      obtain ⟨d1, d2, d3⟩ := ceil_mul_facts tile_shape[i] _ ha
      exact ⟨hget, hget ▸ d1, hget ▸ d2, hget ▸ d3⟩
  · intro hlen
    unfold alignChunkToTile
    simp [hlen]

/-- Witness for C6 at the spec's concrete inputs: tile = [7,3],
alignment = [4,2], element_bytes = 4 yields chunk_shape = [8,4] and
bytes = 84; and a rank mismatch yields the error. -/
theorem C6_align_chunk_to_tile_witness :
    ([7, 3] : List Nat).length = ([4, 2] : List Nat).length ∧
    alignChunkToTile [7, 3] [4, 2] 4 =
      Except.ok { tile_shape := [7, 3], chunk_shape := [8, 4], bytes := 84 } ∧
    alignChunkToTile [7, 3] [4] 4 =
      Except.error "tile shape and alignment rank must match" := by
  have h := C6_align_chunk_to_tile [7, 3] [4, 2] 4
  have h2 := C6_align_chunk_to_tile [7, 3] [4] 4
  refine ⟨rfl, ?_, h2.2 (by decide)⟩
  obtain ⟨d, hd, -, -, -, -⟩ := h.1 rfl
  rw [hd]
  have hval : alignChunkToTile [7, 3] [4, 2] 4 =
      Except.ok { tile_shape := [7, 3], chunk_shape := [8, 4], bytes := 84 } := by
    rfl
  rw [hd] at hval
  exact hval

/-- C8: for a key whose registered metadata carries is_zero = true,
QueuePrefetch performs no fetch and enqueues nothing: the engine state is
unchanged, so the pipeline's request queue, its ready queue and Pending()
are all unchanged and no consumable entry is produced for that key. -/
theorem C8_zero_tile_shortcut {α : Type} (e : OutcoreEngine α) (key : String)
    (m : BlockMetadata) (hfound : mdLookup e.metadata key = some m)
    (hzero : m.is_zero = true) :
    engineQueuePrefetch e key = e ∧
    (engineQueuePrefetch e key).io.queue = e.io.queue ∧
    (engineQueuePrefetch e key).io.ready = e.io.ready ∧
    ioPending (engineQueuePrefetch e key).io = ioPending e.io := by
  have heq : engineQueuePrefetch e key = e := by
    unfold engineQueuePrefetch
    rw [hfound]
    simp [hzero]
  exact ⟨heq, by rw [heq], by rw [heq], by rw [heq]⟩

/-- Witness for C8: a fresh engine with one block registered as
is_zero = true; QueuePrefetch on it leaves the engine unchanged and
Pending() stays 0. -/
theorem C8_zero_tile_shortcut_witness :
    let m : BlockMetadata :=
      { is_zero := true, hdf5_path := "/tensor/block0",
        descriptor := { tile_shape := [4, 4], chunk_shape := [4, 4], bytes := 64 } }
    let e : OutcoreEngine Nat :=
      { metadata := mdRegister [] "block0" m, cache := lruCacheInit Nat 1024,
        io := ioThreadInit Nat }
    mdLookup e.metadata "block0" = some m ∧ m.is_zero = true ∧
      engineQueuePrefetch e "block0" = e ∧
      ioPending (engineQueuePrefetch e "block0").io = 0 := by
  intro m e
  have h := C8_zero_tile_shortcut e "block0" m rfl rfl
  exact ⟨rfl, rfl, h.1, by rw [h.1]; rfl⟩

/-- After the stop flag reads true, Stop is a no-op. -/
theorem ioStop_of_stopped {α : Type} (t : IOThread α)
    (h : t.stopFlag = true) : ioStop t = t := by
  unfold ioStop
  simp [h]

/-- Iterating Stop on an already-stopped pipeline changes nothing. -/
theorem ioStop_iterate_stopped {α : Type} (j : Nat) (t : IOThread α)
    (h : t.stopFlag = true) : ioStop^[j] t = t := by
  induction j with
  | zero => rfl
  | succ j ih =>
    rw [Function.iterate_succ_apply, ioStop_of_stopped t h, ih]

/-- C9: Stop is idempotent: calling Stop k ≥ 1 times on a running
pipeline flips the stop flag from false to true exactly once, joins the
worker exactly once (joinCount rises by exactly 1), leaves the pipeline
in a terminal state on which every further Stop is a no-op, and the
destructor (which calls Stop) is likewise a no-op there. -/
theorem C9_stop_idempotent {α : Type} (k : Nat) (t : IOThread α)
    (hk : 1 ≤ k) (hrun : t.stopFlag = false) :
    ioStop^[k] t = { t with stopFlag := true, joinCount := t.joinCount + 1 } ∧
    ioStop (ioStop^[k] t) = ioStop^[k] t ∧
    ioDestruct (ioStop^[k] t) = ioStop^[k] t ∧
    (∀ u : IOThread α, ioDestruct u = ioStop u) := by
  obtain ⟨j, rfl⟩ : ∃ j, k = j + 1 := ⟨k - 1, by omega⟩
  have h1 : ioStop t = { t with stopFlag := true, joinCount := t.joinCount + 1 } := by
    unfold ioStop
    simp [hrun]
  have hit : ioStop^[j + 1] t =
      { t with stopFlag := true, joinCount := t.joinCount + 1 } := by
    rw [Function.iterate_succ_apply, h1, ioStop_iterate_stopped j _ rfl]
  refine ⟨hit, ?_, ?_, fun u => rfl⟩
  · rw [hit, ioStop_of_stopped _ rfl]
  · rw [hit]
    exact ioStop_of_stopped _ rfl

/-- Witness for C9: three Stop calls on a fresh pipeline set the stop
flag and join the worker exactly once; the state is terminal. -/
theorem C9_stop_idempotent_witness :
    1 ≤ 3 ∧ (ioThreadInit Nat).stopFlag = false ∧
    ioStop^[3] (ioThreadInit Nat) =
      { queue := [], ready := [], stopFlag := true, joinCount := 1 } ∧
    ioStop (ioStop^[3] (ioThreadInit Nat)) = ioStop^[3] (ioThreadInit Nat) := by
  have h := C9_stop_idempotent 3 (ioThreadInit Nat) (by omega) rfl
  exact ⟨by omega, rfl, h.1, h.2.1⟩

/-- Modelled from the spec: the chunk derivation as the spec's words
state it for registry_create, with a ROUNDED (nearest-integer) isotropic
edge s = round((target_bytes / sizeof(double))^(1/rank)), floored to 1
and clamped per-axis to the global dimension. -/
def specRoundChunk (target_bytes : Nat) (rank : Nat) (global : List Nat) :
    List Nat :=
  global.map (fun g => min (max (roundRoot rank (target_bytes / 8)) 1) g)

/-- C2: evaluation of the code at the failing input rank = 3,
global = [10,10,10], target = 56 bytes (7 doubles).  The real cube root
of 7 is about 1.91 — far from an integer, so floor of any faithful pow
equals the exact floor — and registry_create derives chunk edge 1,
while the claim's round((target/sizeof(double))^(1/rank)) derivation
(the logic the helper's own comment says it reuses from Phase 1, and
which calculate_chunk_dims implements) gives 2: the code floors where
the claim and its declared intent round. -/
theorem C2_round_counterexample :
    (registry_create 3 [10, 10, 10] 56).chunk_dims = [1, 1, 1] ∧
    specRoundChunk 56 3 [10, 10, 10] = [2, 2, 2] ∧
    (registry_create 3 [10, 10, 10] 56).chunk_dims ≠
      specRoundChunk 56 3 [10, 10, 10] := by
  refine ⟨by decide, by decide, by decide⟩

/-- C10: evaluation of the code at the failing input target = 56 bytes,
rank = 3, global = [10,10,10]: internal_calc_chunk (registry.c, floor of
the isotropic root) derives chunk_dims [1,1,1] while calculate_chunk_dims
(tensor_store.c, round of the same root) derives [2,2,2], so the two
chunk derivations are not identical and a registry disagrees with the
chunk geometry of a dataset created by create_chunked_dataset.  The
root of 7 is about 1.91, far from an integer, so this divergence is
insensitive to the floating-point evaluation of pow. -/
theorem C10_counterexample :
    internal_calc_chunk 56 3 [10, 10, 10] = [1, 1, 1] ∧
    calculate_chunk_dims 56 3 [10, 10, 10] = [2, 2, 2] ∧
    internal_calc_chunk 56 3 [10, 10, 10] ≠
      calculate_chunk_dims 56 3 [10, 10, 10] := by
  refine ⟨by decide, by decide, by decide⟩

/-- Computation rule: acquiring from an empty free stack is a no-op. -/
theorem simStep_acquire_nil {α : Type} (s : PoolSim α)
    (h : s.pool.free_stack = []) : simStep s PoolOp.acquire = s := by
  unfold simStep
  rw [h]

/-- Computation rule: acquiring pops the top of the free stack onto the
in-use list. -/
theorem simStep_acquire_cons {α : Type} (s : PoolSim α) (k : Nat)
    (rest : List Nat) (h : s.pool.free_stack = k :: rest) :
    simStep s PoolOp.acquire =
      { pool := { s.pool with free_stack := rest }, in_use := k :: s.in_use } := by
  unfold simStep
  rw [h]
  simp only [pool_acquire, h]

/-- Computation rule: an accepted release pushes the id back on the free
stack and removes it from the in-use list. -/
theorem simStep_release_ok {α : Type} (s : PoolSim α) (k : Nat)
    (h1 : k < s.pool.num_pages)
    (h2 : s.pool.free_stack.length < s.pool.num_pages) :
    simStep s (PoolOp.release k) =
      { pool := { s.pool with free_stack := k :: s.pool.free_stack },
        in_use := s.in_use.erase k } := by
  simp only [simStep, pool_release, if_pos (And.intro h1 h2), if_pos h1,
    if_neg (show ¬ s.pool.num_pages ≤ s.pool.free_stack.length by omega)]

/-- Both pool operations leave num_pages unchanged. -/
theorem simStep_num_pages {α : Type} (s : PoolSim α) (op : PoolOp) :
    (simStep s op).pool.num_pages = s.pool.num_pages := by
  cases op with
  | acquire =>
    cases h : s.pool.free_stack with
    | nil => rw [simStep_acquire_nil s h]
    | cons k rest => rw [simStep_acquire_cons s k rest h]
  | release k =>
    by_cases hc : k < s.pool.num_pages ∧
        s.pool.free_stack.length < s.pool.num_pages
    · rw [simStep_release_ok s k hc.1 hc.2]
    · have hstep : simStep s (PoolOp.release k) =
          { pool := pool_release s.pool k, in_use := s.in_use } := by
        simp only [simStep, if_neg hc]
      rw [hstep]
      unfold pool_release
      split
      · split <;> rfl
      · rfl

/-- One good simulation step keeps the free stack plus the in-use ids a
permutation of the page range. -/
theorem simStep_perm {α : Type} (s : PoolSim α) (op : PoolOp)
    (hperm : (s.pool.free_stack ++ s.in_use).Perm
      (List.range s.pool.num_pages))
    (hgood : ∀ k, op = PoolOp.release k → k ∈ s.in_use) :
    ((simStep s op).pool.free_stack ++ (simStep s op).in_use).Perm
      (List.range (simStep s op).pool.num_pages) := by
  rw [simStep_num_pages]
  cases op with
  | acquire =>
    cases hfs : s.pool.free_stack with
    | nil =>
      rw [simStep_acquire_nil s hfs]
      exact hperm
    | cons k rest =>
      rw [simStep_acquire_cons s k rest hfs]
      have hmid : (rest ++ k :: s.in_use).Perm (k :: (rest ++ s.in_use)) :=
        List.perm_middle
      have hfull : (k :: (rest ++ s.in_use)).Perm
          (List.range s.pool.num_pages) := by
        have : k :: (rest ++ s.in_use) = (k :: rest) ++ s.in_use := rfl
        rw [this, ← hfs]
        exact hperm
      exact hmid.trans hfull
  | release k =>
    have hk : k ∈ s.in_use := hgood k rfl
    have hkrange : k < s.pool.num_pages := by
      have := hperm.mem_iff.1 (List.mem_append_right _ hk)
      simpa [List.mem_range] using this
    have hlen : s.pool.free_stack.length + s.in_use.length =
        s.pool.num_pages := by
      have := hperm.length_eq
      simpa [List.length_append, List.length_range] using this
    have hinuse : 0 < s.in_use.length :=
      List.length_pos.2 (List.ne_nil_of_mem hk)
    rw [simStep_release_ok s k hkrange (by omega)]
    have h2 : s.in_use.Perm (k :: s.in_use.erase k) :=
      List.perm_cons_erase hk
    have step1 : ((k :: s.pool.free_stack) ++ s.in_use.erase k).Perm
        (s.pool.free_stack ++ (k :: s.in_use.erase k)) :=
      List.perm_middle.symm
    have step2 : (s.pool.free_stack ++ (k :: s.in_use.erase k)).Perm
        (s.pool.free_stack ++ s.in_use) :=
      List.Perm.append_left _ h2.symm
    exact (step1.trans step2).trans hperm

/-- Running a good call sequence preserves the permutation invariant. -/
theorem simRun_perm {α : Type} (ops : List PoolOp) :
    ∀ s : PoolSim α, goodOps s ops = true →
      (s.pool.free_stack ++ s.in_use).Perm (List.range s.pool.num_pages) →
      ((simRun s ops).pool.free_stack ++ (simRun s ops).in_use).Perm
        (List.range (simRun s ops).pool.num_pages) := by
  induction ops with
  | nil => intro s _ hperm; exact hperm
  | cons op ops ih =>
    intro s hgood hperm
    have hstep : ∀ k, op = PoolOp.release k → k ∈ s.in_use := by
      intro k hop
      subst hop
      unfold goodOps at hgood
      exact of_decide_eq_true (Bool.and_eq_true_iff.1 hgood).1
    have h1 := simStep_perm s op hperm hstep
    have hgood' : goodOps (simStep s op) ops = true := by
      cases op with
      | acquire => exact hgood
      | release k =>
        unfold goodOps at hgood
        exact (Bool.and_eq_true_iff.1 hgood).2
    exact ih (simStep s op) hgood' h1

/-- Counterexample to C3 as stated: on a fresh 2-page pool, acquire page
1 and then release page 0 — an id that was never acquired.  pool_release
accepts it (it is in range and the stack is not full), so id 0 now sits
twice on the free stack and free_count + in_use_count = 3, not 2. -/
theorem C3_pool_conservation_counterexample :
    (simRun (simInit 2 1 [(), ()]) [PoolOp.acquire, PoolOp.release 0]).pool.free_stack
        = [0, 0] ∧
    pool_free_count
        (simRun (simInit 2 1 [(), ()]) [PoolOp.acquire, PoolOp.release 0]).pool +
      (simRun (simInit 2 1 [(), ()]) [PoolOp.acquire, PoolOp.release 0]).in_use.length ≠ 2 ∧
    ¬ (simRun (simInit 2 1 [(), ()]) [PoolOp.acquire, PoolOp.release 0]).pool.free_stack.Nodup := by
  refine ⟨by decide, by decide, by decide⟩

/-- C3 (amended: restricted to sequences in which every released id is
currently in use): after any finite such sequence of pool_acquire and
pool_release calls on a pool of N pages, free_count + in_use_count = N,
every id on the free stack is in [0, N), the free stack has no
duplicates, and every in-use id is in [0, N). -/
theorem C3_pool_conservation {α : Type} (n page_size : Nat) (slab : List α)
    (ops : List PoolOp)
    (hgood : goodOps (simInit n page_size slab) ops = true) :
    pool_free_count (simRun (simInit n page_size slab) ops).pool +
        (simRun (simInit n page_size slab) ops).in_use.length = n ∧
    (∀ k ∈ (simRun (simInit n page_size slab) ops).pool.free_stack, k < n) ∧
    (simRun (simInit n page_size slab) ops).pool.free_stack.Nodup ∧
    (∀ k ∈ (simRun (simInit n page_size slab) ops).in_use, k < n) := by
  have hinit : ((simInit n page_size slab : PoolSim α).pool.free_stack ++
      (simInit n page_size slab : PoolSim α).in_use).Perm (List.range n) := by
    show ((List.range n).reverse ++ []).Perm (List.range n)
    rw [List.append_nil]
    exact List.reverse_perm _
  have hnum : ∀ ops' (s : PoolSim α),
      (simRun s ops').pool.num_pages = s.pool.num_pages := by
    intro ops'
    induction ops' with
    | nil => intro s; rfl
    | cons op ops' ih =>
      intro s
      have hstep : simRun s (op :: ops') = simRun (simStep s op) ops' := rfl
      rw [hstep, ih, simStep_num_pages]
  have hperm := simRun_perm ops (simInit n page_size slab) hgood hinit
  rw [hnum ops (simInit n page_size slab)] at hperm
  have hlen := hperm.length_eq
  simp only [List.length_append, List.length_range] at hlen
  refine ⟨by simpa [pool_free_count] using hlen, ?_, ?_, ?_⟩
  · intro k hkmem
    have : k ∈ List.range n := hperm.mem_iff.1 (List.mem_append_left _ hkmem)
    simpa [List.mem_range] using this
  · have hnodup : ((simRun (simInit n page_size slab) ops).pool.free_stack ++
        (simRun (simInit n page_size slab) ops).in_use).Nodup :=
      hperm.symm.nodup (List.nodup_range n)
    exact (List.nodup_append.1 hnodup).1
  · intro k hkmem
    have : k ∈ List.range n := hperm.mem_iff.1 (List.mem_append_right _ hkmem)
    simpa [List.mem_range] using this

/-- Witness for C3: pool of 3 pages, acquire (which hands out id 2) then
release id 2; the conservation invariant holds afterwards. -/
theorem C3_pool_conservation_witness :
    goodOps (simInit 3 10 ([] : List Nat)) [PoolOp.acquire, PoolOp.release 2]
        = true ∧
    pool_free_count
        (simRun (simInit 3 10 ([] : List Nat))
          [PoolOp.acquire, PoolOp.release 2]).pool +
      (simRun (simInit 3 10 ([] : List Nat))
        [PoolOp.acquire, PoolOp.release 2]).in_use.length = 3 :=
  ⟨by decide,
   (C3_pool_conservation 3 10 ([] : List Nat)
     [PoolOp.acquire, PoolOp.release 2] (by decide)).1⟩

/-- Repeated acquire pops a prefix of the free stack, in stack order. -/
theorem acquireN_spec {α : Type} (m : Nat) :
    ∀ p : BufferPool α,
      acquireN p m =
        (p.free_stack.take m, { p with free_stack := p.free_stack.drop m }) := by
  induction m with
  | zero => intro p; rfl
  | succ m ih =>
    intro p
    cases p with
    | mk np ps fs sl =>
      cases fs with
      | nil => rfl
      | cons k rest =>
        show (k :: (acquireN ⟨np, ps, rest, sl⟩ m).1,
            (acquireN ⟨np, ps, rest, sl⟩ m).2) = _
        rw [ih]
        rfl

/-- Counterexample to C7 as stated: on a fresh 2-page pool the free
stack is full, so pool_release(0) is rejected (double-release guard);
the following pool_acquire then returns id 1, not 0.  The release-then-
acquire round trip therefore does not hold in EVERY pool state. -/
theorem C7_pool_lifo_counterexample :
    (pool_acquire (pool_release (pool_create 2 1 [(), ()]) 0)).1 = some 1 ∧
    (pool_acquire (pool_release (pool_create 2 1 [(), ()]) 0)).1 ≠ some 0 := by
  refine ⟨by decide, by decide⟩

/-- C7 (amended: the release-then-acquire round trip requires the
release to be accepted, i.e. the id in range and the stack not full):
the free list is LIFO — on a fresh pool of N pages the first acquires
return N-1, N-2, ..., 0 in order; in any pool state in which
pool_release(k) passes its guards, pool_release(k) immediately followed
by pool_acquire yields k again and restores the pool state exactly (in
particular the slab contents are untouched — no implicit zeroing).
Concretely, create(3,10) then three acquires yields ids [2,1,0], and
after releasing id 1 the next acquire yields 1. -/
theorem C7_pool_lifo :
    (∀ (α : Type) (n page_size : Nat) (slab : List α),
      (acquireN (pool_create n page_size slab) n).1 = (List.range n).reverse) ∧
    (∀ (α : Type) (p : BufferPool α) (k : Nat),
      k < p.num_pages → p.free_stack.length < p.num_pages →
      pool_acquire (pool_release p k) = (some k, p)) ∧
    (acquireN (pool_create 3 10 (List.replicate 30 (0 : Nat))) 3).1 =
      [2, 1, 0] ∧
    (pool_acquire (pool_release
        ((acquireN (pool_create 3 10 (List.replicate 30 (0 : Nat))) 3).2) 1)).1 =
      some 1 := by
  refine ⟨?_, ?_, by decide, by decide⟩
  · intro α n page_size slab
    rw [acquireN_spec]
    show (List.range n).reverse.take n = (List.range n).reverse
    exact List.take_of_length_le (by simp)
  · intro α p k hk hlen
    have hrel : pool_release p k =
        { p with free_stack := k :: p.free_stack } := by
      unfold pool_release
      rw [if_pos hk, if_neg (by omega)]
    rw [hrel]
    rfl

/-- Witness for C7: the round-trip part applied to the concrete pool of
the spec's scenario (3 pages, ids 2,1,0 acquired, releasing id 1). -/
theorem C7_pool_lifo_witness :
    (1 < ((acquireN (pool_create 3 10 (List.replicate 30 (0 : Nat))) 3).2).num_pages ∧
      ((acquireN (pool_create 3 10 (List.replicate 30 (0 : Nat))) 3).2).free_stack.length <
        ((acquireN (pool_create 3 10 (List.replicate 30 (0 : Nat))) 3).2).num_pages) ∧
    pool_acquire (pool_release
        ((acquireN (pool_create 3 10 (List.replicate 30 (0 : Nat))) 3).2) 1) =
      (some 1, (acquireN (pool_create 3 10 (List.replicate 30 (0 : Nat))) 3).2) :=
  ⟨⟨by decide, by decide⟩,
   C7_pool_lifo.2.1 Nat ((acquireN (pool_create 3 10 (List.replicate 30 (0 : Nat))) 3).2) 1
     (by decide) (by decide)⟩

/-- Keys of the cache entry table. -/
def keys (l : List (String × List α)) : List String := l.map Prod.fst

/-- Total payload bytes of the entry table (sizeof(float) = 4 per
element), the quantity current_bytes accounts. -/
def sumBytes (l : List (String × List α)) : Nat :=
  (l.map (fun p => p.2.length * 4)).sum

/-- A successful lookup means the key is present. -/
theorem lookup_some_mem_keys {β : Type _} (l : List (String × β)) (k : String)
    (d : β) (h : l.lookup k = some d) : k ∈ l.map Prod.fst := by
  have hs : (l.lookup k).isSome := by rw [h]; rfl
  obtain ⟨p, hp, he⟩ := List.lookup_isSome_iff.1 hs
  exact List.mem_map.2 ⟨p, hp, (beq_iff_eq.1 he).symm⟩

/-- A present key looks up successfully. -/
theorem mem_keys_lookup_isSome {β : Type _} (l : List (String × β)) (k : String)
    (h : k ∈ l.map Prod.fst) : (l.lookup k).isSome := by
  rw [List.lookup_isSome_iff]
  obtain ⟨p, hp, he⟩ := List.mem_map.1 h
  exact ⟨p, hp, beq_iff_eq.2 he.symm⟩

/-- Erasing an absent key changes nothing. -/
theorem eraseAssoc_of_not_mem (l : List (String × List α)) (k : String)
    (h : k ∉ keys l) : eraseAssoc l k = l := by
  induction l with
  | nil => rfl
  | cons p t ih =>
    have hne : p.1 ≠ k := by
      intro he
      exact h (by rw [keys, List.map_cons, he]; exact List.mem_cons_self _ _)
    have ht : k ∉ keys t := by
      intro hm
      exact h (by rw [keys, List.map_cons]; exact List.mem_cons_of_mem _ hm)
    unfold eraseAssoc at ih ⊢
    rw [List.filter_cons, if_pos (by simpa using hne), ih ht]

/-- Updating an absent key changes nothing. -/
theorem updateAssoc_of_not_mem (l : List (String × List α)) (k : String)
    (v : List α) (h : k ∉ keys l) : updateAssoc l k v = l := by
  induction l with
  | nil => rfl
  | cons p t ih =>
    have hne : p.1 ≠ k := by
      intro he
      exact h (by rw [keys, List.map_cons, he]; exact List.mem_cons_self _ _)
    have ht : k ∉ keys t := by
      intro hm
      exact h (by rw [keys, List.map_cons]; exact List.mem_cons_of_mem _ hm)
    unfold updateAssoc at ih ⊢
    rw [List.map_cons, if_neg hne, ih ht]

/-- Erasing a present key removes exactly its bytes from the total. -/
theorem sumBytes_eraseAssoc (l : List (String × List α)) (k : String)
    (d : List α) (hnd : (keys l).Nodup) (hl : l.lookup k = some d) :
    sumBytes (eraseAssoc l k) + d.length * 4 = sumBytes l := by
  induction l with
  | nil => simp at hl
  | cons p t ih =>
    obtain ⟨a, b⟩ := p
    have hnd' : (keys t).Nodup := by
      have h2 : (a :: keys t).Nodup := by simpa [keys] using hnd
      exact (List.nodup_cons.1 h2).2
    by_cases hk : k = a
    · subst hk
      rw [List.lookup_cons_self] at hl
      obtain rfl : b = d := by injection hl
      have hknott : k ∉ keys t := by
        have h2 : (k :: keys t).Nodup := by simpa [keys] using hnd
        exact (List.nodup_cons.1 h2).1
      unfold eraseAssoc
      rw [List.filter_cons, if_neg (by simp)]
      rw [show (List.filter (fun p => decide (p.1 ≠ k)) t) = eraseAssoc t k from rfl,
        eraseAssoc_of_not_mem t k hknott]
      simp [sumBytes]
      omega
    · have hl' : t.lookup k = some d := by
        rw [List.lookup_cons] at hl
        have : (k == a) = false := beq_eq_false_iff_ne.2 hk
        rw [this] at hl
        exact hl
      have := ih hnd' hl'
      unfold eraseAssoc at this ⊢
      rw [List.filter_cons, if_pos (by simpa using fun he => hk he.symm)]
      simp [sumBytes] at this ⊢
      omega

/-- Updating a present key swaps its bytes in the total. -/
theorem sumBytes_updateAssoc (l : List (String × List α)) (k : String)
    (v old : List α) (hnd : (keys l).Nodup) (hl : l.lookup k = some old) :
    sumBytes (updateAssoc l k v) + old.length * 4 =
      sumBytes l + v.length * 4 := by
  induction l with
  | nil => simp at hl
  | cons p t ih =>
    obtain ⟨a, b⟩ := p
    have hnd' : (keys t).Nodup := by
      have h2 : (a :: keys t).Nodup := by simpa [keys] using hnd
      exact (List.nodup_cons.1 h2).2
    by_cases hk : k = a
    · subst hk
      rw [List.lookup_cons_self] at hl
      obtain rfl : b = old := by injection hl
      have hknott : k ∉ keys t := by
        have h2 : (k :: keys t).Nodup := by simpa [keys] using hnd
        exact (List.nodup_cons.1 h2).1
      unfold updateAssoc
      rw [List.map_cons, if_pos rfl]
      rw [show (t.map fun p => if p.1 = k then (k, v) else p) = updateAssoc t k v from rfl,
        updateAssoc_of_not_mem t k v hknott]
      simp [sumBytes]
      omega
    · have hl' : t.lookup k = some old := by
        rw [List.lookup_cons] at hl
        have : (k == a) = false := beq_eq_false_iff_ne.2 hk
        rw [this] at hl
        exact hl
      have := ih hnd' hl'
      unfold updateAssoc at this ⊢
      rw [List.map_cons, if_neg (fun he => hk he.symm)]
      simp [sumBytes] at this ⊢
      omega

/-- Updating keeps the key list unchanged. -/
theorem keys_updateAssoc (l : List (String × List α)) (k : String)
    (v : List α) : keys (updateAssoc l k v) = keys l := by
  induction l with
  | nil => rfl
  | cons p t ih =>
    unfold updateAssoc at ih ⊢
    rw [List.map_cons]
    by_cases hp : p.1 = k
    · rw [if_pos hp]
      simp only [keys, List.map_cons] at ih ⊢
      rw [ih, hp]
    · rw [if_neg hp]
      simp only [keys, List.map_cons] at ih ⊢
      rw [ih]

/-- Membership in the keys after an erase. -/
theorem mem_keys_eraseAssoc (l : List (String × List α)) (k k' : String) :
    k' ∈ keys (eraseAssoc l k) ↔ k' ∈ keys l ∧ k' ≠ k := by
  induction l with
  | nil => simp [eraseAssoc, keys]
  | cons p t ih =>
    unfold eraseAssoc at ih ⊢
    rw [List.filter_cons]
    by_cases hp : p.1 = k
    · rw [if_neg (by simp [hp])]
      rw [ih]
      simp only [keys, List.map_cons, List.mem_cons]
      constructor
      · rintro ⟨h1, h2⟩
        exact ⟨Or.inr h1, h2⟩
      · rintro ⟨h1 | h1, h2⟩
        · exact absurd (h1.trans hp) h2
        · exact ⟨h1, h2⟩
    · rw [if_pos (by simpa using hp)]
      simp only [keys, List.map_cons, List.mem_cons] at ih ⊢
      rw [ih]
      constructor
      · rintro (h1 | ⟨h1, h2⟩)
        · exact ⟨Or.inl h1, h1 ▸ hp⟩
        · exact ⟨Or.inr h1, h2⟩
      · rintro ⟨h1 | h1, h2⟩
        · exact Or.inl h1
        · exact Or.inr ⟨h1, h2⟩

/-- Erasing preserves key uniqueness. -/
theorem keys_eraseAssoc_nodup (l : List (String × List α)) (k : String)
    (hnd : (keys l).Nodup) : (keys (eraseAssoc l k)).Nodup := by
  have hsub : List.Sublist (eraseAssoc l k) l := List.filter_sublist l
  exact List.Sublist.nodup (List.Sublist.map Prod.fst hsub) hnd

/-- Cache well-formedness: the byte counter equals the payload bytes of
the entry table, the recency list and the key set are duplicate-free, and
they contain the same keys (spec invariant I5 plus exact accounting). -/
def wfCache (c : LruCache α) : Prop :=
  c.current_bytes = sumBytes c.entries ∧ c.lru.Nodup ∧
    (keys c.entries).Nodup ∧ ∀ k, k ∈ c.lru ↔ k ∈ keys c.entries

/-- The eviction loop preserves well-formedness and exits only at or
under budget (an empty key list forces an empty table, whose byte total
is zero). -/
theorem evictAux_spec (maxB : Nat) (rl : List String) :
    ∀ (entries : List (String × List α)) (cur : Nat),
      cur = sumBytes entries → rl.Nodup → (keys entries).Nodup →
      (∀ k, k ∈ rl ↔ k ∈ keys entries) →
      (evictAux maxB rl entries cur).2.2 =
          sumBytes (evictAux maxB rl entries cur).2.1 ∧
        (evictAux maxB rl entries cur).1.Nodup ∧
        (keys (evictAux maxB rl entries cur).2.1).Nodup ∧
        (∀ k, k ∈ (evictAux maxB rl entries cur).1 ↔
          k ∈ keys (evictAux maxB rl entries cur).2.1) ∧
        (evictAux maxB rl entries cur).2.2 ≤ maxB := by
  induction rl with
  | nil =>
    intro entries cur hcur hnd1 hnd2 hiff
    have hkeys : keys entries = [] := by
      cases hk : keys entries with
      | nil => rfl
      | cons a t =>
        exfalso
        have : a ∈ ([] : List String) := (hiff a).2 (by
          rw [hk]
          exact List.mem_cons_self a t)
        exact absurd this (List.not_mem_nil a)
    have hent : entries = [] := by
      cases entries with
      | nil => rfl
      | cons p t => simp [keys] at hkeys
    subst hent
    have hcur0 : cur = 0 := by simpa [sumBytes] using hcur
    subst hcur0
    exact ⟨rfl, List.nodup_nil, List.nodup_nil, fun k => Iff.rfl,
      Nat.zero_le maxB⟩
  | cons key rest ih =>
    intro entries cur hcur hnd1 hnd2 hiff
    by_cases hle : cur ≤ maxB
    · simp only [evictAux, if_pos hle]
      exact ⟨hcur, hnd1, hnd2, hiff, hle⟩
    · have hkey : key ∈ keys entries := (hiff key).1 (List.mem_cons_self key rest)
      have hkey2 : key ∈ entries.map Prod.fst := hkey
      obtain ⟨d, hd⟩ : ∃ d, entries.lookup key = some d :=
        Option.isSome_iff_exists.1 (mem_keys_lookup_isSome entries key hkey2)
      simp only [evictAux, if_neg hle, hd]
      have hsum := sumBytes_eraseAssoc entries key d hnd2 hd
      have hd4 : d.length * 4 ≤ sumBytes entries := by omega
      apply ih
      · omega
      · exact (List.nodup_cons.1 hnd1).2
      · exact keys_eraseAssoc_nodup entries key hnd2
      · intro k
        rw [mem_keys_eraseAssoc]
        constructor
        · intro hk
          refine ⟨(hiff k).1 (List.mem_cons_of_mem key hk), ?_⟩
          intro he
          exact (List.nodup_cons.1 hnd1).1 (he ▸ hk)
        · rintro ⟨h1, h2⟩
          have := (hiff k).2 h1
          cases List.mem_cons.1 this with
          | inl h => exact absurd h h2
          | inr h => exact h

/-- EvictIfNeeded preserves well-formedness, keeps the budget field, and
leaves the cache at or under budget. -/
theorem evictIfNeeded_wf (c : LruCache α) (h : wfCache c) :
    wfCache (evictIfNeeded c) ∧
      (evictIfNeeded c).current_bytes ≤ c.max_bytes ∧
      (evictIfNeeded c).max_bytes = c.max_bytes := by
  obtain ⟨h1, h2, h3, h4⟩ := h
  have hspec := evictAux_spec c.max_bytes c.lru.reverse c.entries
    c.current_bytes h1 (List.nodup_reverse.2 h2) h3
    (fun k => Iff.trans (List.mem_reverse) (h4 k))
  refine ⟨⟨hspec.1, ?_, hspec.2.2.1, ?_⟩, hspec.2.2.2.2, rfl⟩
  · exact List.nodup_reverse.2 hspec.2.1
  · intro k
    exact Iff.trans (List.mem_reverse) (hspec.2.2.2.1 k)

/-- Put preserves well-formedness and always leaves the cache at or
under budget (the eviction loop will empty the cache if necessary). -/
theorem lruPut_wf (c : LruCache α) (key : String) (data : List α)
    (h : wfCache c) :
    wfCache (lruPut c key data) ∧
      (lruPut c key data).current_bytes ≤ c.max_bytes ∧
      (lruPut c key data).max_bytes = c.max_bytes := by
  obtain ⟨h1, h2, h3, h4⟩ := h
  unfold lruPut
  cases hd : c.entries.lookup key with
  | some old =>
    simp only []
    have hkey : key ∈ keys c.entries := lookup_some_mem_keys _ _ _ hd
    have hsum := sumBytes_updateAssoc c.entries key data old h3 hd
    have hers := sumBytes_eraseAssoc c.entries key old h3 hd
    have hold4 : old.length * 4 ≤ sumBytes c.entries := by omega
    apply evictIfNeeded_wf
    refine ⟨?_, ?_, ?_, ?_⟩
    · show c.current_bytes - old.length * 4 + data.length * 4 =
        sumBytes (updateAssoc c.entries key data)
      omega
    · show (lruTouch c.lru key).Nodup
      unfold lruTouch
      exact List.nodup_cons.2 ⟨h2.not_mem_erase, h2.erase key⟩
    · show (keys (updateAssoc c.entries key data)).Nodup
      rw [keys_updateAssoc]
      exact h3
    · intro k
      show k ∈ lruTouch c.lru key ↔ k ∈ keys (updateAssoc c.entries key data)
      rw [keys_updateAssoc]
      unfold lruTouch
      constructor
      · intro hk
        cases List.mem_cons.1 hk with
        | inl he => exact he ▸ hkey
        | inr he => exact (h4 k).1 (h2.mem_erase_iff.1 he).2
      · intro hk
        by_cases he : k = key
        · exact he ▸ List.mem_cons_self _ _
        · exact List.mem_cons_of_mem _ (h2.mem_erase_iff.2 ⟨he, (h4 k).2 hk⟩)
  | none =>
    simp only []
    have hkey : key ∉ keys c.entries := by
      intro hk
      have := mem_keys_lookup_isSome c.entries key hk
      rw [hd] at this
      exact absurd this (by simp)
    have hklru : key ∉ c.lru := fun hk => hkey ((h4 key).1 hk)
    apply evictIfNeeded_wf
    refine ⟨?_, ?_, ?_, ?_⟩
    · show c.current_bytes + data.length * 4 =
        sumBytes ((key, data) :: c.entries)
      simp [sumBytes, h1]
      omega
    · exact List.nodup_cons.2 ⟨hklru, h2⟩
    · show (keys ((key, data) :: c.entries)).Nodup
      simp only [keys, List.map_cons]
      exact List.nodup_cons.2 ⟨hkey, h3⟩
    · intro k
      show k ∈ key :: c.lru ↔ k ∈ keys ((key, data) :: c.entries)
      simp only [keys, List.map_cons, List.mem_cons]
      constructor
      · rintro (he | he)
        · exact Or.inl he
        · exact Or.inr ((h4 k).1 he)
      · rintro (he | he)
        · exact Or.inl he
        · exact Or.inr ((h4 k).2 he)

/-- A whole sequence of Puts from a well-formed under-budget cache ends
well-formed and under budget, with the budget unchanged. -/
theorem lruPuts_wf (ops : List (String × List α)) :
    ∀ c : LruCache α, wfCache c → c.current_bytes ≤ c.max_bytes →
      wfCache (lruPuts c ops) ∧
        (lruPuts c ops).current_bytes ≤ (lruPuts c ops).max_bytes ∧
        (lruPuts c ops).max_bytes = c.max_bytes := by
  induction ops with
  | nil => intro c hwf hle; exact ⟨hwf, hle, rfl⟩
  | cons p ops ih =>
    intro c hwf hle
    have hstep := lruPut_wf c p.1 p.2 hwf
    have hrun : lruPuts c (p :: ops) = lruPuts (lruPut c p.1 p.2) ops := rfl
    rw [hrun]
    have := ih (lruPut c p.1 p.2) hstep.1 (by
      rw [hstep.2.2]
      exact hstep.2.1)
    exact ⟨this.1, this.2.1, by rw [this.2.2, hstep.2.2]⟩

/-- Counterexample to C1 as stated: a single Put of a 16-byte payload
into a fresh cache with budget 10 leaves ZERO entries resident, not one:
the eviction loop of EvictIfNeeded stops only on current_bytes <=
max_bytes or an empty recency list, so it does evict the sole remaining
entry instead of retaining the over-budget tile. -/
theorem C1_sole_entry_counterexample :
    (lruPut (lruCacheInit Nat 10) "a" [0, 0, 0, 0]).entries.length = 0 ∧
    ¬ (lruPut (lruCacheInit Nat 10) "a" [0, 0, 0, 0]).entries.length = 1 := by
  refine ⟨by decide, by decide⟩

/-- C1 (amended): for every cache created with budget B, after any
finite sequence of put(key, payload) operations current_bytes ≤ B holds
unconditionally: Put evicts from the least-recent end until current_bytes
≤ max_bytes, and it will evict even the sole remaining entry, so a single
over-budget tile is dropped and the cache is left empty rather than
retaining it. -/
theorem C1_cache_budget :
    (∀ (α : Type) (B : Nat) (ops : List (String × List α)),
      (lruPuts (lruCacheInit α B) ops).current_bytes ≤ B) ∧
    (lruPut (lruCacheInit Nat 10) "a" [0, 0, 0, 0]).entries = [] ∧
    (lruPut (lruCacheInit Nat 10) "a" [0, 0, 0, 0]).lru = [] ∧
    (lruPut (lruCacheInit Nat 10) "a" [0, 0, 0, 0]).current_bytes = 0 := by
  refine ⟨?_, by decide, by decide, by decide⟩
  intro α B ops
  have hwf : wfCache (lruCacheInit α B) :=
    ⟨rfl, List.nodup_nil, List.nodup_nil, fun k => Iff.rfl⟩
  have h := lruPuts_wf ops (lruCacheInit α B) hwf (by
    show 0 ≤ B
    exact Nat.zero_le B)
  calc (lruPuts (lruCacheInit α B) ops).current_bytes
      ≤ (lruPuts (lruCacheInit α B) ops).max_bytes := h.2.1
    _ = B := h.2.2

/-- Closed form of the reverse row-major decomposition for rank 3. -/
theorem unlin3 (n0 n1 n2 idx : Nat) :
    (unlin [n0, n1, n2] idx).1 =
      [idx / n2 / n1 % n0, idx / n2 % n1, idx % n2] := rfl

/-- Re-linearizing the decomposition of an in-range flat index is the
identity (rank 3). -/
theorem lin3_unlin (n0 n1 n2 idx : Nat) (h : idx < n0 * (n1 * (n2 * 1))) :
    idx / n2 / n1 % n0 * (n1 * n2) + idx / n2 % n1 * n2 + idx % n2 = idx := by
  rcases Nat.eq_zero_or_pos n2 with h2 | h2
  · subst h2; simp at h
  rcases Nat.eq_zero_or_pos n1 with h1 | h1
  · subst h1; simp at h
  have hq : idx / n2 < n0 * n1 := by
    rw [Nat.div_lt_iff_lt_mul h2]
    calc idx < n0 * (n1 * (n2 * 1)) := h
      _ = n0 * n1 * n2 := by ring
  have hlt : idx / n2 / n1 < n0 := by
    rw [Nat.div_lt_iff_lt_mul h1]
    calc idx / n2 < n0 * n1 := hq
      _ = n0 * n1 := rfl
  rw [Nat.mod_eq_of_lt hlt]
  have expand : idx / n2 / n1 * (n1 * n2) + idx / n2 % n1 * n2 + idx % n2 =
      (n1 * (idx / n2 / n1) + idx / n2 % n1) * n2 + idx % n2 := by ring
  rw [expand, Nat.div_add_mod (idx / n2) n1, Nat.div_add_mod' idx n2]

/-- A valid coordinate triple linearizes below the tile count (rank 3). -/
theorem lin3_lt (n0 n1 n2 i j k : Nat) (hi : i < n0) (hj : j < n1)
    (hk : k < n2) : i * (n1 * n2) + j * n2 + k < n0 * (n1 * (n2 * 1)) := by
  have e1 : (j + 1) * n2 = j * n2 + n2 := by ring
  have e2 : (i + 1) * (n1 * n2) = i * (n1 * n2) + n1 * n2 := by ring
  have e3 : n0 * (n1 * (n2 * 1)) = n0 * (n1 * n2) := by ring
  have h2 : (j + 1) * n2 ≤ n1 * n2 := Nat.mul_le_mul_right n2 (by omega)
  have h3 : (i + 1) * (n1 * n2) ≤ n0 * (n1 * n2) :=
    Nat.mul_le_mul_right (n1 * n2) (by omega)
  omega

/-- Decomposing the linearization of a valid coordinate triple is the
identity (rank 3). -/
theorem unlin3_lin (n0 n1 n2 i j k : Nat) (hi : i < n0) (hj : j < n1)
    (hk : k < n2) :
    (unlin [n0, n1, n2] (i * (n1 * n2) + j * n2 + k)).1 = [i, j, k] := by
  rw [unlin3]
  have e0 : i * (n1 * n2) + j * n2 + k = n2 * (i * n1 + j) + k := by ring
  have hn2 : 0 < n2 := by omega
  have hn1 : 0 < n1 := by omega
  have hdiv : (i * (n1 * n2) + j * n2 + k) / n2 = i * n1 + j := by
    rw [e0, Nat.mul_add_div hn2, Nat.div_eq_of_lt hk, Nat.add_zero]
  have hmod : (i * (n1 * n2) + j * n2 + k) % n2 = k := by
    rw [e0, Nat.mul_add_mod, Nat.mod_eq_of_lt hk]
  have e1 : i * n1 + j = n1 * i + j := by ring
  have hdiv2 : (i * n1 + j) / n1 = i := by
    rw [e1, Nat.mul_add_div hn1, Nat.div_eq_of_lt hj, Nat.add_zero]
  have hmod2 : (i * n1 + j) % n1 = j := by
    rw [e1, Nat.mul_add_mod, Nat.mod_eq_of_lt hj]
  rw [hdiv, hmod, hdiv2, hmod2, Nat.mod_eq_of_lt hi]

/-- C4: for a rank-3 registry, every valid flat tile index idx holds a
tile whose stored coordinates re-linearize (by the row-major formula of
registry_get_tile) back to idx and whose phys_offset is the per-axis
product of its coordinates with chunk_dims; conversely, for every valid
coordinate triple, registry_get_tile returns the tile storing exactly
those coordinates (round trip coords -> get_tile -> stored coords is the
identity). -/
theorem C4_registry_bijection (g0 g1 g2 target : Nat) (reg : TensorRegistry)
    (hreg : reg = registry_create 3 [g0, g1, g2] target) :
    (∀ idx, idx < reg.total_tiles →
      ∃ t, reg.tiles.get? idx = some t ∧
        lin3 reg.grid_dims (t.global_coords.getD 0 0)
            (t.global_coords.getD 1 0) (t.global_coords.getD 2 0) = idx ∧
        t.phys_offset =
          List.zipWith (fun c ch => c * ch) t.global_coords reg.chunk_dims) ∧
    (∀ i j k, i < reg.grid_dims.getD 0 0 → j < reg.grid_dims.getD 1 0 →
      k < reg.grid_dims.getD 2 0 →
      ∃ t, registry_get_tile reg i j k = some t ∧
        t.global_coords = [i, j, k]) := by
  subst hreg
  set reg := registry_create 3 [g0, g1, g2] target with hreg2
  obtain ⟨n0, n1, n2, hgrid⟩ : ∃ n0 n1 n2, reg.grid_dims = [n0, n1, n2] :=
    ⟨_, _, _, rfl⟩
  have htotal : reg.total_tiles = n0 * (n1 * (n2 * 1)) := by
    have : reg.total_tiles = reg.grid_dims.prod := rfl
    rw [this, hgrid]
    rfl
  have htiles : reg.tiles =
      (List.range reg.total_tiles).map (tileInit reg.grid_dims reg.chunk_dims) :=
    rfl
  constructor
  · intro idx hidx
    refine ⟨tileInit reg.grid_dims reg.chunk_dims idx, ?_, ?_, ?_⟩
    · rw [htiles, List.get?_eq_getElem?, List.getElem?_map,
        List.getElem?_range (by omega : idx < reg.total_tiles)]
      rfl
    · have hcoords : (tileInit reg.grid_dims reg.chunk_dims idx).global_coords =
          [idx / n2 / n1 % n0, idx / n2 % n1, idx % n2] := by
        show (unlin reg.grid_dims idx).1 = _
        rw [hgrid, unlin3]
      rw [hcoords, hgrid]
      show idx / n2 / n1 % n0 * (n1 * n2) + idx / n2 % n1 * n2 + idx % n2 = idx
      exact lin3_unlin n0 n1 n2 idx (by omega)
    · rfl
  · intro i j k hi hj hk
    rw [hgrid] at hi hj hk
    simp only [List.getD] at hi hj hk
    have hi' : i < n0 := by simpa using hi
    have hj' : j < n1 := by simpa using hj
    have hk' : k < n2 := by simpa using hk
    have hidx : lin3 reg.grid_dims i j k = i * (n1 * n2) + j * n2 + k := by
      rw [hgrid]
      rfl
    refine ⟨tileInit reg.grid_dims reg.chunk_dims (i * (n1 * n2) + j * n2 + k),
      ?_, ?_⟩
    · unfold registry_get_tile
      rw [hgrid]
      rw [if_neg (by
        simp only [List.getD]
        push_neg
        exact ⟨by simpa using hi', by simpa using hj', by simpa using hk'⟩)]
      have hidx2 : lin3 [n0, n1, n2] i j k = i * (n1 * n2) + j * n2 + k := rfl
      rw [hidx2, htiles, List.get?_eq_getElem?, List.getElem?_map,
        List.getElem?_range (by
          rw [htotal]
          exact lin3_lt n0 n1 n2 i j k hi' hj' hk')]
      rw [hgrid]
      rfl
    · show (unlin reg.grid_dims (i * (n1 * n2) + j * n2 + k)).1 = [i, j, k]
      rw [hgrid]
      exact unlin3_lin n0 n1 n2 i j k hi' hj' hk'

/-- Witness for C4: in the 5x5x5 registry of the concrete scenario, the
tile at flat index 31 stores coordinates [1,1,1] which re-linearize to
31, and get_tile(1,1,1) returns coordinates [1,1,1]. -/
theorem C4_registry_bijection_witness :
    31 < (registry_create 3 [300, 300, 300] (2 * 2 ^ 20)).total_tiles ∧
    (∃ t, (registry_create 3 [300, 300, 300] (2 * 2 ^ 20)).tiles.get? 31 =
        some t ∧
      lin3 (registry_create 3 [300, 300, 300] (2 * 2 ^ 20)).grid_dims
          (t.global_coords.getD 0 0) (t.global_coords.getD 1 0)
          (t.global_coords.getD 2 0) = 31 ∧
      t.phys_offset = List.zipWith (fun c ch => c * ch) t.global_coords
        (registry_create 3 [300, 300, 300] (2 * 2 ^ 20)).chunk_dims) ∧
    (∃ t, registry_get_tile (registry_create 3 [300, 300, 300] (2 * 2 ^ 20))
        1 1 1 = some t ∧ t.global_coords = [1, 1, 1]) :=
  ⟨by decide,
   (C4_registry_bijection 300 300 300 (2 * 2 ^ 20) _ rfl).1 31 (by decide),
   (C4_registry_bijection 300 300 300 (2 * 2 ^ 20) _ rfl).2 1 1 1 (by decide)
     (by decide) (by decide)⟩

/-- Flat tile index a reported offset resolves to in the scan (the
lin3 linearization of its recovered coordinates). -/
def scanIdx (reg : TensorRegistry) (off : Nat × Nat × Nat) : Nat :=
  let c := scanCoords reg off
  lin3 reg.grid_dims c.1 c.2.1 c.2.2

/-- Marking a tile keeps the tile-array length. -/
theorem setTileOnDisk_length (tiles : List TileMetadata) (idx : Nat) :
    (setTileOnDisk tiles idx).length = tiles.length := by
  unfold setTileOnDisk
  cases h : tiles.get? idx with
  | none => rfl
  | some t => exact List.length_set tiles idx _

/-- Computation rule for an in-grid scan step. -/
theorem scanStep_true (cnt : Nat) (r : TensorRegistry)
    (off : Nat × Nat × Nat) (h : inGrid r off = true) :
    scanStep (cnt, r) off =
      (cnt + 1, { r with tiles := setTileOnDisk r.tiles (scanIdx r off) }) := by
  unfold scanStep
  rw [if_pos h]
  rfl

/-- Computation rule for an out-of-grid scan step: the offset is
reported as a contract violation and skipped; the scan continues. -/
theorem scanStep_false (cnt : Nat) (r : TensorRegistry)
    (off : Nat × Nat × Nat) (h : inGrid r off = false) :
    scanStep (cnt, r) off = (cnt, r) := by
  unfold scanStep
  rw [if_neg (by simp [h])]

/-- Status of a tile after marking one index. -/
theorem setTileOnDisk_get (tiles : List TileMetadata) (i idx : Nat)
    (hidx : idx < tiles.length) :
    ((setTileOnDisk tiles idx).get? i).map TileMetadata.status =
      if i = idx then some TileStatus.on_disk
      else (tiles.get? i).map TileMetadata.status := by
  unfold setTileOnDisk
  cases h : tiles.get? idx with
  | none =>
    exfalso
    have := List.get?_eq_none.1 h
    omega
  | some t =>
    by_cases hi : i = idx
    · subst hi
      rw [if_pos rfl, List.get?_eq_getElem?, List.getElem?_set_self
        (by simpa using hidx)]
      rfl
    · rw [if_neg hi, List.get?_eq_getElem?, List.getElem?_set_ne
        (fun he => hi he.symm), ← List.get?_eq_getElem?]

/-- The scan's running count grows by exactly the number of in-grid
offsets, independently of the tile updates. -/
theorem scan_count (offs : List (Nat × Nat × Nat)) :
    ∀ (cnt : Nat) (r : TensorRegistry),
      (List.foldl scanStep (cnt, r) offs).1 =
        cnt + (offs.filter (fun o => inGrid r o)).length := by
  induction offs with
  | nil => intro cnt r; rfl
  | cons off rest ih =>
    intro cnt r
    rw [List.foldl_cons, List.filter_cons]
    cases hg : inGrid r off with
    | true =>
      rw [scanStep_true cnt r off hg]
      rw [ih (cnt + 1) { r with tiles := setTileOnDisk r.tiles (scanIdx r off) }]
      simp only [if_pos rfl]
      have : (List.filter (fun o => inGrid
          { r with tiles := setTileOnDisk r.tiles (scanIdx r off) } o) rest) =
          (List.filter (fun o => inGrid r o) rest) := rfl
      rw [this]
      simp
      omega
    | false =>
      rw [scanStep_false cnt r off hg]
      rw [ih cnt r]
      simp [hg]

/-- After the scan, a tile is ON_DISK exactly when it was already
ON_DISK or some reported offset resolves in-grid to its index.  The
hypothesis hwf says in-grid offsets resolve inside the tile array, which
holds for every registry built by registry_create. -/
theorem scan_status (offs : List (Nat × Nat × Nat)) :
    ∀ (cnt : Nat) (r : TensorRegistry),
      (∀ o, inGrid r o = true → scanIdx r o < r.tiles.length) →
      ∀ idx,
      (((List.foldl scanStep (cnt, r) offs).2.tiles.get? idx).map
          TileMetadata.status = some TileStatus.on_disk ↔
        ((r.tiles.get? idx).map TileMetadata.status = some TileStatus.on_disk ∨
          ∃ off ∈ offs, inGrid r off = true ∧ scanIdx r off = idx)) := by
  induction offs with
  | nil =>
    intro cnt r hwf idx
    simp
  | cons off rest ih =>
    intro cnt r hwf idx
    rw [List.foldl_cons]
    cases hg : inGrid r off with
    | true =>
      rw [scanStep_true cnt r off hg]
      have hr1 := ih (cnt + 1)
        { r with tiles := setTileOnDisk r.tiles (scanIdx r off) }
        (by
          intro o ho
          show scanIdx r o < (setTileOnDisk r.tiles (scanIdx r off)).length
          rw [setTileOnDisk_length]
          exact hwf o ho)
        idx
      rw [hr1]
      have hset : ((setTileOnDisk r.tiles (scanIdx r off)).get? idx).map
          TileMetadata.status =
          if idx = scanIdx r off then some TileStatus.on_disk
          else (r.tiles.get? idx).map TileMetadata.status :=
        setTileOnDisk_get r.tiles idx (scanIdx r off) (hwf off hg)
      constructor
      · rintro (hstat | ⟨o, ho, hgo, hio⟩)
        · rw [hset] at hstat
          by_cases hi : idx = scanIdx r off
          · exact Or.inr ⟨off, List.mem_cons_self off rest, hg, hi.symm⟩
          · rw [if_neg hi] at hstat
            exact Or.inl hstat
        · exact Or.inr ⟨o, List.mem_cons_of_mem off ho, hgo, hio⟩
      · rintro (hstat | ⟨o, ho, hgo, hio⟩)
        · left
          rw [hset]
          by_cases hi : idx = scanIdx r off
          · rw [if_pos hi]
          · rw [if_neg hi]
            exact hstat
        · cases List.mem_cons.1 ho with
          | inl he =>
            left
            rw [hset]
            rw [if_pos (by rw [he] at hio; exact hio.symm)]
          | inr he => exact Or.inr ⟨o, he, hgo, hio⟩
    | false =>
      rw [scanStep_false cnt r off hg]
      rw [ih cnt r hwf idx]
      constructor
      · rintro (hstat | ⟨o, ho, hgo, hio⟩)
        · exact Or.inl hstat
        · exact Or.inr ⟨o, List.mem_cons_of_mem off ho, hgo, hio⟩
      · rintro (hstat | ⟨o, ho, hgo, hio⟩)
        · exact Or.inl hstat
        · cases List.mem_cons.1 ho with
          | inl he =>
            exfalso
            rw [he] at hgo
            rw [hg] at hgo
            exact Bool.false_ne_true hgo
          | inr he => exact Or.inr ⟨o, he, hgo, hio⟩

/-- C5: registry_scan_file marks ON_DISK exactly the tiles whose
reported phys_offset lies inside the registry's grid (recovering
coordinates by per-axis division by chunk_dims) and returns the number
of in-grid offsets; an out-of-grid offset is reported as a contract
violation of the external store but does not abort the scan, and the
remaining offsets are still processed.  Concretely, in the 5x5x5
registry, scanning the offsets of tiles (0,0,0), (1,1,1), (2,2,2)
returns 3, leaves tile (1,1,1) ON_DISK and tile (0,1,0) ABSENT; with a
rogue offset (400,0,0) inserted the count is still 3 and the later
offsets are still marked. -/
theorem C5_scan_file (g0 g1 g2 target : Nat) (offs : List (Nat × Nat × Nat))
    (_h0 : 1 ≤ g0) (_h1 : 1 ≤ g1) (_h2 : 1 ≤ g2) (reg : TensorRegistry)
    (hreg : reg = registry_create 3 [g0, g1, g2] target) :
    ((registry_scan_file reg offs).1 =
        (offs.filter (fun o => inGrid reg o)).length ∧
      ∀ idx, idx < reg.total_tiles →
        (((registry_scan_file reg offs).2.tiles.get? idx).map
            TileMetadata.status = some TileStatus.on_disk ↔
          ∃ off ∈ offs, inGrid reg off = true ∧ scanIdx reg off = idx)) ∧
    (registry_scan_file (registry_create 3 [300, 300, 300] (2 * 2 ^ 20))
        [(0, 0, 0), (64, 64, 64), (128, 128, 128)]).1 = 3 ∧
    ((registry_get_tile (registry_scan_file
          (registry_create 3 [300, 300, 300] (2 * 2 ^ 20))
          [(0, 0, 0), (64, 64, 64), (128, 128, 128)]).2 1 1 1).map
        TileMetadata.status = some TileStatus.on_disk) ∧
    ((registry_get_tile (registry_scan_file
          (registry_create 3 [300, 300, 300] (2 * 2 ^ 20))
          [(0, 0, 0), (64, 64, 64), (128, 128, 128)]).2 0 1 0).map
        TileMetadata.status = some TileStatus.null) ∧
    (registry_scan_file (registry_create 3 [300, 300, 300] (2 * 2 ^ 20))
        [(0, 0, 0), (400, 0, 0), (64, 64, 64), (128, 128, 128)]).1 = 3 ∧
    ((registry_get_tile (registry_scan_file
          (registry_create 3 [300, 300, 300] (2 * 2 ^ 20))
          [(0, 0, 0), (400, 0, 0), (64, 64, 64), (128, 128, 128)]).2 2 2 2).map
        TileMetadata.status = some TileStatus.on_disk) := by
  subst hreg
  set reg := registry_create 3 [g0, g1, g2] target with hreg2
  refine ⟨⟨?_, ?_⟩, by decide, by decide, by decide, by decide, by decide⟩
  · have h := scan_count offs 0 reg
    simpa using h
  · obtain ⟨n0, n1, n2, hgrid⟩ : ∃ a b c, reg.grid_dims = [a, b, c] :=
      ⟨_, _, _, rfl⟩
    have htlen : reg.tiles.length = n0 * (n1 * (n2 * 1)) := by
      show ((List.range reg.total_tiles).map _).length = _
      rw [List.length_map, List.length_range]
      show reg.grid_dims.prod = _
      rw [hgrid]
      rfl
    have htot : reg.total_tiles = n0 * (n1 * (n2 * 1)) := by
      show reg.grid_dims.prod = _
      rw [hgrid]
      rfl
    have hwf : ∀ o, inGrid reg o = true → scanIdx reg o < reg.tiles.length := by
      intro o ho
      unfold inGrid at ho
      simp only [Bool.and_eq_true, decide_eq_true_eq] at ho
      rw [hgrid] at ho
      simp only [List.getD] at ho
      obtain ⟨⟨hb0, hb1⟩, hb2⟩ := ho
      rw [htlen]
      show lin3 reg.grid_dims (scanCoords reg o).1 (scanCoords reg o).2.1
        (scanCoords reg o).2.2 < n0 * (n1 * (n2 * 1))
      rw [hgrid]
      have := lin3_lt n0 n1 n2 (scanCoords reg o).1 (scanCoords reg o).2.1
        (scanCoords reg o).2.2 (by simpa using hb0) (by simpa using hb1)
        (by simpa using hb2)
      simpa [lin3] using this
    intro idx hidx
    have h := scan_status offs 0 reg hwf idx
    have hrw : (registry_scan_file reg offs).2 =
        (List.foldl scanStep (0, reg) offs).2 := rfl
    rw [hrw, h]
    have hinit : (reg.tiles.get? idx).map TileMetadata.status =
        some TileStatus.null := by
      have htiles : reg.tiles =
          (List.range reg.total_tiles).map
            (tileInit reg.grid_dims reg.chunk_dims) := rfl
      rw [htiles, List.get?_eq_getElem?, List.getElem?_map,
        List.getElem?_range (by omega : idx < reg.total_tiles)]
      rfl
    constructor
    · rintro (hstat | hex)
      · rw [hinit] at hstat
        exact absurd hstat (by decide)
      · exact hex
    · intro hex
      exact Or.inr hex

/-- Witness for C5: the general scan theorem applied to the concrete
5x5x5 registry and the three written tile offsets. -/
theorem C5_scan_file_witness :
    1 ≤ 300 ∧
    (registry_scan_file (registry_create 3 [300, 300, 300] (2 * 2 ^ 20))
        [(0, 0, 0), (64, 64, 64), (128, 128, 128)]).1 =
      (([(0, 0, 0), (64, 64, 64), (128, 128, 128)] :
          List (Nat × Nat × Nat)).filter
        (fun o => inGrid (registry_create 3 [300, 300, 300] (2 * 2 ^ 20)) o)).length :=
  ⟨by omega,
   (C5_scan_file 300 300 300 (2 * 2 ^ 20)
      [(0, 0, 0), (64, 64, 64), (128, 128, 128)]
      (by omega) (by omega) (by omega) _ rfl).1.1⟩

end Outcore
